import Mathlib

/-! Verification of the document processor in
`src/sustainability_rag/src/extractors/text_extractor.py` (class
`DocumentProcessor`).  Python strings are modelled as lists of
characters; `_split_text`, `_extract_metric_candidates` and
`process_document` are embedded as executable Lean functions. -/

/-- Python strings, modelled as lists of characters (code points). -/
abbrev Str := List Char

/-- Whitespace as recognised by Python `str.strip()` and `\s`
(the ASCII part, which covers every character the program handles). -/
def pyIsSpace (c : Char) : Bool :=
  c = ' ' || c = '\t' || c = '\n' || c = '\r' || c = '\x0b' || c = '\x0c'

/-- One step of splitting on a newline: prepend character `c` to the
list of pieces accumulated so far. -/
def splitCons (c : Char) (acc : List Str) : List Str :=
  if c = '\n' then [] :: acc
  else
    match acc with
    | [] => [[c]]
    | h :: t => (c :: h) :: t

/-- Python `text.split('\n')`; in particular `"".split('\n') == [""]`. -/
def pySplitNL (s : Str) : List Str :=
  s.foldr splitCons [[]]

/-- Newline-joining of lines, the inverse of `pySplitNL` on its image. -/
def joinNL : List Str → Str
  | [] => []
  | [s] => s
  | s :: t :: rest => s ++ '\n' :: joinNL (t :: rest)

/-- Python `str.strip()`: drop leading and trailing whitespace. -/
def pyStrip (s : Str) : Str :=
  List.rdropWhile pyIsSpace (List.dropWhile pyIsSpace s)

/-- The non-blank lines of a text, each trimmed: split on newlines,
strip every line, and drop the blank ones. -/
def nbLines (s : Str) : List Str :=
  ((pySplitNL s).map pyStrip).filter (fun l => !l.isEmpty)

/-- The Chinese numerals of the heading regex `[一二三四五六七八九十]`. -/
def isCNum (c : Char) : Bool :=
  c = '一' || c = '二' || c = '三' || c = '四' || c = '五' ||
  c = '六' || c = '七' || c = '八' || c = '九' || c = '十'

/-- ASCII decimal digits, for `\d`. -/
def isAsciiDigit (c : Char) : Bool := '0' ≤ c && c ≤ '9'

/-- Prefix match for `p+ stop` where no character satisfying `p` equals
`stop` (true for all three alternations of the heading regex). -/
def plusThen (p : Char → Bool) (stop : Char) (s : Str) : Bool :=
  match s with
  | [] => false
  | c :: _ => p c && ((s.dropWhile p).head? = some stop)

/-- `re.match(section_pattern, line)` from `_split_text`, where
`section_pattern` is
`'\n(?:[一二三四五六七八九十]+、|\d+\.|第[一二三四五六七八九十]+章)'`;
`re.match` anchors at the start of `line`, so the leading `\n` of the
pattern must be the first character of `line`. -/
def reMatchSection (line : Str) : Bool :=
  match line with
  | '\n' :: rest =>
    plusThen isCNum '、' rest || plusThen isAsciiDigit '.' rest ||
    (match rest with
     | '第' :: r => plusThen isCNum '章' r
     | _ => false)
  | _ => false

/-- The loop body of `_split_text`: state is `(chunks, current_chunk)`. -/
def splitStep (cs co : Int) (st : List Str × Str) (line : Str) : List Str × Str :=
  if reMatchSection line = true ∧ st.2 ≠ [] then
    (st.1 ++ [pyStrip st.2], line)
  else if (st.2.length : Int) + (line.length : Int) > cs - co then
    (if st.2 ≠ [] then st.1 ++ [pyStrip st.2] else st.1, line)
  else
    (st.1, st.2 ++ '\n' :: line)

/-- `_split_text` applied to an already split line list. -/
def splitLinesF (cs co : Int) (lines : List Str) : List Str :=
  let st := lines.foldl (splitStep cs co) ([], [])
  if st.2 ≠ [] then st.1 ++ [pyStrip st.2] else st.1

/-- `DocumentProcessor._split_text(text)` with `chunk_size = cs` and
`chunk_overlap = co`. -/
def splitText (cs co : Int) (text : Str) : List Str :=
  splitLinesF cs co (pySplitNL text)

/-- The default configuration values `chunk_size=1000, chunk_overlap=200`
from `DocumentProcessor.__init__`. -/
def defaultChunkSize : Int := 1000

def defaultChunkOverlap : Int := 200

/-- The final flush of `_split_text`: append the last buffer if non-empty. -/
def finishSplit (st : List Str × Str) : List Str :=
  if st.2 ≠ [] then st.1 ++ [pyStrip st.2] else st.1

/-- Trimmed non-blank content of a loop state. -/
def stateNB (st : List Str × Str) : List Str :=
  (st.1.map nbLines).flatten ++ nbLines st.2

/-- `seg` occurs as a block of consecutive elements of `l`. -/
def InfixOfL (seg l : List Str) : Prop := ∃ u v, l = u ++ seg ++ v

/-- `suf` is a suffix of `l`. -/
def SuffixOfL (suf l : List Str) : Prop := ∃ u, l = u ++ suf

/-- `c` is the stripped newline-join of a block of consecutive lines. -/
def IsLineChunk (all : List Str) (c : Str) : Prop :=
  ∃ seg, InfixOfL seg all ∧ c = pyStrip (joinNL seg)

/-- Invariant of the `_split_text` loop over the processed lines `all`:
every emitted chunk is a stripped join of consecutive lines, and the
buffer is the join of a suffix of the lines, possibly with the phantom
leading newline introduced by `current_chunk += "\n" + line`. -/
def GoodState (all : List Str) (st : List Str × Str) : Prop :=
  (∀ c ∈ st.1, IsLineChunk all c) ∧
  (st.2 = [] ∨ ∃ suf, suf ≠ [] ∧ SuffixOfL suf all ∧
    (st.2 = joinNL suf ∨ st.2 = '\n' :: joinNL suf))

/-- `current_chunk += "\n" + line` iterated over a list of lines. -/
def appendLines (cur : Str) (ls : List Str) : Str :=
  ls.foldl (fun a l => a ++ '\n' :: l) cur

/-- The lines of `ls`, each preceded by a newline, concatenated. -/
def nlTail (ls : List Str) : Str :=
  (ls.map (fun l => '\n' :: l)).flatten

/-- The heading patterns as the specification reads them, applied to a
bare line with no leading newline: a Chinese numeral run followed by 、,
a decimal number followed by a dot, or 第 followed by Chinese numerals
and 章. -/
def specSectionHeading (l : Str) : Bool :=
  plusThen isCNum '、' l || plusThen isAsciiDigit '.' l ||
  (match l with
   | '第' :: r => plusThen isCNum '章' r
   | _ => false)

/-- A metric candidate as built by `_extract_metric_candidates`:
the dict with keys keyword, context (`match.group(0)`), value
(`match.group(1)`) and unit. -/
structure MetricCandidate where
  keyword : Str
  context : Str
  value : Str
  unit : Option Str
deriving DecidableEq

/-- The fixed keyword list `esg_keywords` of the source. -/
def esgKeywords : List Str :=
  [("員工").data, ("環境").data, ("碳排").data, ("能源").data,
   ("培訓").data, ("薪資").data, ("安全").data, ("事故").data]

/-- The unit alternatives of `number_pattern`, in alternation order. -/
def unitSymbols : List Str :=
  [("%").data, ("％").data, ("萬").data, ("億").data, ("個").data,
   ("人").data, ("元").data, ("小時").data, ("分鐘").data]

/-- The lazy middle `[^。\n]*?` before the number: consume characters up
to the first digit, failing on `。`, a newline, or the end of input. -/
def lazyMiddle : Str → Option (Str × Str)
  | [] => none
  | c :: t =>
    if isAsciiDigit c then some ([], c :: t)
    else if c = '。' ∨ c = '\n' then none
    else (lazyMiddle t).map (fun p => (c :: p.1, p.2))

/-- Greedy `(\d+(?:\.\d+)?)\s*(?:%|％|萬|億|個|人|元|小時|分鐘)?` at the
start of `s`: the captured value, the further consumed characters
(whitespace and unit, part of `group(0)` only), and the rest. -/
def matchNumTail (s : Str) : Str × Str × Str :=
  let d := s.takeWhile isAsciiDigit
  let r := s.dropWhile isAsciiDigit
  let vr : Str × Str :=
    match r with
    | '.' :: r2 =>
      if r2.takeWhile isAsciiDigit ≠ [] then
        (d ++ '.' :: r2.takeWhile isAsciiDigit, r2.dropWhile isAsciiDigit)
      else (d, r)
    | _ => (d, r)
  let sp := vr.2.takeWhile pyIsSpace
  let r3 := vr.2.dropWhile pyIsSpace
  match unitSymbols.find? (fun u => r3.take u.length = u) with
  | some u => (vr.1, sp ++ u, r3.drop u.length)
  | none => (vr.1, sp, r3)

/-- Try `keyword[^。\n]*?<number pattern>` at the start of `s`; on
success return `group(0)`, `group(1)` and the remaining text. -/
def tryMatchAt (kw : Str) (s : Str) : Option (Str × Str × Str) :=
  if s.take kw.length = kw then
    match lazyMiddle (s.drop kw.length) with
    | none => none
    | some (mid, r) =>
      let t := matchNumTail r
      some (kw ++ mid ++ t.1 ++ t.2.1, t.1, t.2.2)
  else none

/-- `re.finditer` over the text: leftmost matches, non-overlapping,
resuming after each match.  `fuel` bounds the recursion and is
instantiated with the text length, which suffices because every
recursive call drops at least one character. -/
def scanKw (kw : Str) : Nat → Str → List (Str × Str)
  | 0, _ => []
  | _ + 1, [] => []
  | fuel + 1, c :: t =>
    match tryMatchAt kw (c :: t) with
    | some (g0, v, rest) => (g0, v) :: scanKw kw fuel rest
    | none => scanKw kw fuel t

/-- `DocumentProcessor._extract_metric_candidates`.  The unit
alternation of `number_pattern` is a non-capturing group, so the whole
pattern has exactly one capturing group; `len(match.groups()) > 1` is
false and the stored unit is always `None`. -/
def extractMetricCandidates (text : Str) : List MetricCandidate :=
  esgKeywords.foldl
    (fun acc kw =>
      acc ++ (scanKw kw text.length text).map
        (fun m => { keyword := kw, context := m.1, value := m.2, unit := none }))
    []

/-- `pat` occurs in `s` at position `i`. -/
def occursAt (pat s : Str) (i : Nat) : Prop :=
  (s.drop i).take pat.length = pat

/-- A pandas DataFrame as consumed by `_process_tables`: its column
names, together with its `to_string(index=False)` rendering.  The
rendering is produced by the pandas library, so it is carried as data
rather than recomputed. -/
structure DataFrame where
  columns : List Str
  rendered : Str

/-- Python `', '.join(columns)`. -/
def commaJoin : List Str → Str
  | [] => []
  | [x] => x
  | x :: y :: rest => x ++ ',' :: ' ' :: commaJoin (y :: rest)

/-- One iteration of `_process_tables`: the text appended for table
number `i` (1-based). -/
def tableBlock (i : Nat) (df : DataFrame) : Str :=
  ('\n' :: ("表格 ").data) ++ ((Nat.repr i)).data ++ (":").data ++
    ('\n' :: ("欄位: ").data) ++ commaJoin df.columns ++
    ('\n' :: df.rendered) ++ ['\n']

/-- `DocumentProcessor._process_tables`. -/
def processTables (tables : List DataFrame) : Str :=
  ((tables.enum).map (fun p => tableBlock (p.1 + 1) p.2)).flatten

/-- The metadata dict built by `process_document`. -/
structure Metadata where
  fileName : Str
  fileType : Str
  processTime : Str
  tablesFound : Nat
  totalChunks : Nat
deriving DecidableEq

/-- Python `str.lower()` (ASCII part, as applied to file suffixes). -/
def pyLower (s : Str) : Str := s.map Char.toLower

/-- `DocumentProcessor.process_document`.  The reader selected by the
suffix produces `(text, tables)`; both are passed in as parameters.
The unsupported branch raises before any reader runs, which the model
reflects by ignoring `text` and `tables` entirely in that branch. -/
def processDocument (cs co : Int) (name rawSuffix ptime : Str) (text : Str)
    (tables : List DataFrame) : Except Str (List Str × Metadata) :=
  let suffix := pyLower rawSuffix
  if suffix = (".pdf").data ∨ suffix = (".docx").data ∨ suffix = (".xlsx").data then
    let tableTexts := processTables tables
    let allText := text ++ '\n' :: tableTexts
    let chunks := splitText cs co allText
    Except.ok (chunks,
      { fileName := name, fileType := suffix, processTime := ptime,
        tablesFound := tables.length, totalChunks := chunks.length })
  else
    Except.error (("Unsupported file type: ").data ++ suffix)

/-- The metadata counters agree with the returned tables and chunks. -/
def metaConsistent (tables : List DataFrame) :
    Except Str (List Str × Metadata) → Prop
  | Except.ok p => p.2.tablesFound = tables.length ∧ p.2.totalChunks = p.1.length
  | Except.error _ => True

theorem pySplitNL_ne_nil (s : Str) : pySplitNL s ≠ [] := by
  induction s with
  | nil => simp [pySplitNL]
  | cons c t ih =>
    show splitCons c (pySplitNL t) ≠ []
    unfold splitCons
    split
    · simp
    · match h : pySplitNL t with
      | [] => exact absurd h ih
      | x :: xs => simp

theorem foldr_splitCons_ne_nil (s : Str) (acc : List Str) (h : acc ≠ []) :
    s.foldr splitCons acc ≠ [] := by
  induction s with
  | nil => exact h
  | cons c t ih =>
    show splitCons c (t.foldr splitCons acc) ≠ []
    unfold splitCons
    split
    · simp
    · match hx : t.foldr splitCons acc with
      | [] => exact absurd hx ih
      | x :: xs => simp

theorem splitCons_append (c : Char) (x : List Str) (hx : x ≠ []) (tail : List Str) :
    splitCons c (x ++ tail) = splitCons c x ++ tail := by
  match x with
  | [] => exact absurd rfl hx
  | h :: t =>
    unfold splitCons
    split <;> simp

theorem foldr_splitCons_append (s : Str) (p : Str) (tail : List Str) :
    s.foldr splitCons (p :: tail) = s.foldr splitCons [p] ++ tail := by
  induction s with
  | nil => rfl
  | cons c t ih =>
    show splitCons c (t.foldr splitCons (p :: tail)) = splitCons c (t.foldr splitCons [p]) ++ tail
    rw [ih, splitCons_append]
    exact foldr_splitCons_ne_nil t [p] (by simp)

/-- Splitting a text containing an explicit newline splits on both sides. -/
theorem pySplitNL_append_nl (a b : Str) :
    pySplitNL (a ++ '\n' :: b) = pySplitNL a ++ pySplitNL b := by
  unfold pySplitNL
  rw [List.foldr_append]
  show a.foldr splitCons (splitCons '\n' (b.foldr splitCons [[]])) = _
  have : splitCons '\n' (b.foldr splitCons [[]]) = [] :: b.foldr splitCons [[]] := by
    unfold splitCons; simp
  rw [this, foldr_splitCons_append]

/-- A text with no newline is a single line. -/
theorem pySplitNL_no_nl (a : Str) (h : '\n' ∉ a) : pySplitNL a = [a] := by
  induction a with
  | nil => rfl
  | cons c t ih =>
    have hc : c ≠ '\n' := fun hcn => h (hcn ▸ List.mem_cons_self c t)
    have ht : '\n' ∉ t := fun htn => h (List.mem_cons_of_mem c htn)
    show splitCons c (pySplitNL t) = [c :: t]
    rw [ih ht]
    unfold splitCons
    simp [hc]

/-- Lines produced by splitting never contain a newline. -/
theorem no_nl_of_mem_pySplitNL (s : Str) :
    ∀ l ∈ pySplitNL s, '\n' ∉ l := by
  induction s with
  | nil => intro l hl; simp [pySplitNL] at hl; simp [hl]
  | cons c t ih =>
    intro l hl
    have hl2 : l ∈ splitCons c (pySplitNL t) := hl
    unfold splitCons at hl2
    split at hl2
    · rcases List.mem_cons.mp hl2 with h | h
      · simp [h]
      · exact ih l h
    · rename_i hc
      match hx : pySplitNL t with
      | [] => exact absurd hx (pySplitNL_ne_nil t)
      | h :: rest =>
        rw [hx] at hl2
        rcases List.mem_cons.mp hl2 with h1 | h1
        · subst h1
          intro hmem
          rcases List.mem_cons.mp hmem with h2 | h2
          · exact hc h2.symm
          · exact ih h (by rw [hx]; exact List.mem_cons_self _ _) h2
        · exact ih l (by rw [hx]; exact List.mem_cons_of_mem _ h1)

/-- Joining the split pieces gives back the original text. -/
theorem joinNL_pySplitNL (s : Str) : joinNL (pySplitNL s) = s := by
  induction s with
  | nil => rfl
  | cons c t ih =>
    show joinNL (splitCons c (pySplitNL t)) = c :: t
    unfold splitCons
    split
    · rename_i hc
      subst hc
      match hx : pySplitNL t with
      | [] => exact absurd hx (pySplitNL_ne_nil t)
      | h :: rest =>
        rw [hx] at ih
        show [] ++ '\n' :: joinNL (h :: rest) = '\n' :: t
        rw [List.nil_append, ih]
    · rename_i hc
      match hx : pySplitNL t with
      | [] => exact absurd hx (pySplitNL_ne_nil t)
      | h :: rest =>
        rw [hx] at ih
        match rest with
        | [] => show c :: h = c :: t; rw [show joinNL [h] = h from rfl] at ih; rw [ih]
        | r :: rs =>
          show (c :: h) ++ '\n' :: joinNL (r :: rs) = c :: t
          have : h ++ '\n' :: joinNL (r :: rs) = t := ih
          simp [← this]

theorem rdropWhile_append_rtakeWhile (p : Char → Bool) (l : Str) :
    List.rdropWhile p l ++ List.rtakeWhile p l = l := by
  simp only [List.rdropWhile, List.rtakeWhile, ← List.reverse_append,
    List.takeWhile_append_dropWhile, List.reverse_reverse]

theorem pyStrip_nil : pyStrip [] = [] := rfl

theorem pyStrip_cons_space {c : Char} (h : pyIsSpace c = true) (s : Str) :
    pyStrip (c :: s) = pyStrip s := by
  simp [pyStrip, List.dropWhile_cons, h]

theorem pyStrip_append_space {c : Char} (h : pyIsSpace c = true) (s : Str) :
    pyStrip (s ++ [c]) = pyStrip s := by
  unfold pyStrip
  rw [List.dropWhile_append]
  by_cases he : (List.dropWhile pyIsSpace s).isEmpty = true
  · rw [if_pos he]
    rw [List.isEmpty_iff] at he
    simp [he, List.dropWhile_cons, h, List.rdropWhile]
  · rw [if_neg he, List.rdropWhile_concat_pos pyIsSpace _ c h]

/-- Stripping is idempotent. -/
theorem pyStrip_idem (s : Str) : pyStrip (pyStrip s) = pyStrip s := by
  unfold pyStrip
  have hx : List.dropWhile pyIsSpace (List.dropWhile pyIsSpace s)
      = List.dropWhile pyIsSpace s := List.dropWhile_idempotent pyIsSpace s
  set x := List.dropWhile pyIsSpace s with hxdef
  have hinner : List.dropWhile pyIsSpace (List.rdropWhile pyIsSpace x)
      = List.rdropWhile pyIsSpace x := by
    match hr : List.rdropWhile pyIsSpace x with
    | [] => rfl
    | d :: ds =>
      rcases List.rdropWhile_prefix pyIsSpace x with ⟨t, ht⟩
      rw [hr] at ht
      have hd : pyIsSpace d = false := by
        by_contra hpd
        have hpd2 : pyIsSpace d = true := by
          cases hv : pyIsSpace d with
          | false => exact absurd hv hpd
          | true => rfl
        have : List.dropWhile pyIsSpace x = List.dropWhile pyIsSpace (ds ++ t) := by
          rw [← ht, List.cons_append, List.dropWhile_cons, if_pos hpd2]
        rw [hx] at this
        have hlen := (List.dropWhile_sublist (l := ds ++ t) pyIsSpace).length_le
        rw [← this, ← ht] at hlen
        simp at hlen
      rw [List.dropWhile_cons, hd]
      simp
  rw [hinner, List.rdropWhile_idempotent]

theorem nbLines_nil : nbLines [] = [] := rfl

theorem nbLines_cons_space {c : Char} (h : pyIsSpace c = true) (s : Str) :
    nbLines (c :: s) = nbLines s := by
  by_cases hc : c = '\n'
  · subst hc
    show (((splitCons '\n' (pySplitNL s)).map pyStrip).filter fun l => !l.isEmpty) = _
    have : splitCons '\n' (pySplitNL s) = [] :: pySplitNL s := by
      unfold splitCons; simp
    rw [this]
    simp [nbLines, pyStrip_nil]
  · show (((splitCons c (pySplitNL s)).map pyStrip).filter fun l => !l.isEmpty) = _
    match hx : pySplitNL s with
    | [] => exact absurd hx (pySplitNL_ne_nil s)
    | p :: ps =>
      have : splitCons c (p :: ps) = (c :: p) :: ps := by
        unfold splitCons; simp [hc]
      rw [this]
      unfold nbLines
      rw [hx]
      simp [pyStrip_cons_space h]

/-- Appending one character to a text extends its last line
(or starts a fresh one for a newline). -/
theorem foldr_splitCons_lastPiece (s : Str) (p : Str) :
    ∃ init last, pySplitNL s = init ++ [last] ∧
      s.foldr splitCons [p] = init ++ [last ++ p] := by
  induction s with
  | nil => exact ⟨[], [], rfl, by simp [pySplitNL]⟩
  | cons c t ih =>
    rcases ih with ⟨init, last, h1, h2⟩
    by_cases hc : c = '\n'
    · subst hc
      refine ⟨[] :: init, last, ?_, ?_⟩
      · show splitCons '\n' (pySplitNL t) = ([] :: init) ++ [last]
        rw [h1]; unfold splitCons; simp
      · show splitCons '\n' (t.foldr splitCons [p]) = ([] :: init) ++ [last ++ p]
        rw [h2]; unfold splitCons; simp
    · match init with
      | [] =>
        refine ⟨[], c :: last, ?_, ?_⟩
        · show splitCons c (pySplitNL t) = [c :: last]
          rw [h1]; unfold splitCons; simp [hc]
        · show splitCons c (t.foldr splitCons [p]) = [(c :: last) ++ p]
          rw [h2]; unfold splitCons; simp [hc]
      | q :: qs =>
        refine ⟨(c :: q) :: qs, last, ?_, ?_⟩
        · show splitCons c (pySplitNL t) = ((c :: q) :: qs) ++ [last]
          rw [h1]; unfold splitCons; simp [hc]
        · show splitCons c (t.foldr splitCons [p]) = ((c :: q) :: qs) ++ [last ++ p]
          rw [h2]; unfold splitCons; simp [hc]

theorem nbLines_append_space {c : Char} (h : pyIsSpace c = true) (s : Str) :
    nbLines (s ++ [c]) = nbLines s := by
  by_cases hc : c = '\n'
  · subst hc
    have : s ++ ['\n'] = s ++ '\n' :: [] := rfl
    rw [this]
    unfold nbLines
    rw [pySplitNL_append_nl]
    simp [pySplitNL, splitCons, pyStrip_nil]
  · rcases foldr_splitCons_lastPiece s [c] with ⟨init, last, h1, h2⟩
    have hsplit : pySplitNL (s ++ [c]) = init ++ [last ++ [c]] := by
      show (s ++ [c]).foldr splitCons [[]] = _
      rw [List.foldr_append]
      have : [c].foldr splitCons [[]] = [[c]] := by
        show splitCons c [[]] = [[c]]
        unfold splitCons; simp [hc]
      rw [this, h2]
    unfold nbLines
    rw [hsplit, h1]
    simp [List.filter_append, pyStrip_append_space h]

theorem nbLines_append_nl (a b : Str) :
    nbLines (a ++ '\n' :: b) = nbLines a ++ nbLines b := by
  unfold nbLines
  rw [pySplitNL_append_nl, List.map_append, List.filter_append]

theorem nbLines_spacePrefix (pre s : Str) (h : ∀ c ∈ pre, pyIsSpace c = true) :
    nbLines (pre ++ s) = nbLines s := by
  induction pre with
  | nil => rfl
  | cons c t ih =>
    have hc : pyIsSpace c = true := h c (List.mem_cons_self c t)
    have ht : ∀ x ∈ t, pyIsSpace x = true := fun x hx => h x (List.mem_cons_of_mem c hx)
    show nbLines (c :: (t ++ s)) = nbLines s
    rw [nbLines_cons_space hc, ih ht]

theorem nbLines_spaceSuffix (suf : Str) (h : ∀ c ∈ suf, pyIsSpace c = true) :
    ∀ s : Str, nbLines (s ++ suf) = nbLines s := by
  induction suf with
  | nil => intro s; simp
  | cons c t ih =>
    intro s
    have hc : pyIsSpace c = true := h c (List.mem_cons_self c t)
    have ht : ∀ x ∈ t, pyIsSpace x = true := fun x hx => h x (List.mem_cons_of_mem c hx)
    have : s ++ c :: t = (s ++ [c]) ++ t := by simp
    rw [this, ih ht (s ++ [c]), nbLines_append_space hc]

/-- The non-blank trimmed lines of a stripped text are those of the text. -/
theorem nbLines_pyStrip (s : Str) : nbLines (pyStrip s) = nbLines s := by
  conv_rhs => rw [← List.takeWhile_append_dropWhile (p := pyIsSpace) (l := s)]
  rw [nbLines_spacePrefix _ _ (fun c hc => List.mem_takeWhile_imp hc)]
  conv_rhs => rw [← rdropWhile_append_rtakeWhile pyIsSpace (List.dropWhile pyIsSpace s)]
  rw [nbLines_spaceSuffix _ (fun c hc => List.mem_rtakeWhile_imp hc)]
  rfl

/-- A line that contains no newline character never matches the section
pattern: the pattern demands a leading `'\n'`. -/
theorem reMatchSection_no_nl (l : Str) (h : '\n' ∉ l) :
    reMatchSection l = false := by
  match l with
  | [] => rfl
  | c :: rest =>
    have hc : c ≠ '\n' := fun hcn => h (hcn ▸ List.mem_cons_self c rest)
    unfold reMatchSection
    split
    · rename_i heq
      rw [List.cons.injEq] at heq
      exact absurd heq.1 hc
    · rfl

theorem splitStep_nb (cs co : Int) (st : List Str × Str) (l : Str) :
    stateNB (splitStep cs co st l) = stateNB st ++ nbLines l := by
  unfold splitStep stateNB
  split
  · simp [List.map_append, List.flatten_append, nbLines_pyStrip]
  · split
    · split
      · simp [List.map_append, List.flatten_append, nbLines_pyStrip]
      · rename_i h2
        have : st.2 = [] := by
          by_contra hne; exact h2 hne
        rw [this]
        simp [nbLines_nil]
    · show (st.1.map nbLines).flatten ++ nbLines (st.2 ++ '\n' :: l) = _
      rw [nbLines_append_nl, List.append_assoc]

theorem foldl_splitStep_nb (cs co : Int) (lines : List Str) :
    ∀ st : List Str × Str,
      stateNB (lines.foldl (splitStep cs co) st) = stateNB st ++ (lines.map nbLines).flatten := by
  induction lines with
  | nil => intro st; simp
  | cons l ls ih =>
    intro st
    show stateNB (ls.foldl (splitStep cs co) (splitStep cs co st l)) = _
    rw [ih, splitStep_nb]
    simp

theorem finishSplit_nb (st : List Str × Str) :
    ((finishSplit st).map nbLines).flatten = stateNB st := by
  unfold finishSplit stateNB
  split
  · simp [List.map_append, List.flatten_append, nbLines_pyStrip]
  · rename_i h2
    have : st.2 = [] := by by_contra hne; exact h2 hne
    rw [this]
    simp [nbLines_nil]

theorem splitLinesF_eq_finish (cs co : Int) (lines : List Str) :
    splitLinesF cs co lines = finishSplit (lines.foldl (splitStep cs co) ([], [])) := rfl

theorem nbLines_joinNL (xs : List Str) :
    nbLines (joinNL xs) = (xs.map nbLines).flatten := by
  induction xs with
  | nil => rfl
  | cons x rest ih =>
    match rest with
    | [] => show nbLines x = nbLines x ++ [] ; simp
    | r :: rs =>
      show nbLines (x ++ '\n' :: joinNL (r :: rs)) = _
      rw [nbLines_append_nl, ih]
      simp

/-- The content part of C3: splitting the text and joining the chunks
back preserves the trimmed non-blank lines. -/
theorem splitText_content (cs co : Int) (text : Str) :
    nbLines (joinNL (splitText cs co text)) = nbLines text := by
  rw [nbLines_joinNL]
  show ((splitLinesF cs co (pySplitNL text)).map nbLines).flatten = _
  rw [splitLinesF_eq_finish, finishSplit_nb, foldl_splitStep_nb]
  have h1 : stateNB ([], []) = [] := rfl
  rw [h1, List.nil_append]
  conv_rhs => rw [← joinNL_pySplitNL text]
  rw [nbLines_joinNL]

theorem joinNL_concat (suf : List Str) (h : suf ≠ []) (l : Str) :
    joinNL (suf ++ [l]) = joinNL suf ++ '\n' :: l := by
  induction suf with
  | nil => exact absurd rfl h
  | cons x rest ih =>
    match rest with
    | [] => simp [joinNL]
    | r :: rs =>
      show joinNL (x :: ((r :: rs) ++ [l])) = (x ++ '\n' :: joinNL (r :: rs)) ++ '\n' :: l
      have h2 : (r :: rs) ++ [l] = r :: (rs ++ [l]) := rfl
      rw [h2]
      show x ++ '\n' :: joinNL (r :: (rs ++ [l])) = _
      rw [← h2, ih (by simp)]
      simp

theorem isLineChunk_mono (all : List Str) (l : Str) (c : Str)
    (h : IsLineChunk all c) : IsLineChunk (all ++ [l]) c := by
  rcases h with ⟨seg, ⟨u, v, huv⟩, hc⟩
  exact ⟨seg, ⟨u, v ++ [l], by rw [huv]; simp⟩, hc⟩

theorem isLineChunk_of_buffer (all : List Str) (st2 : Str)
    (h : ∃ suf, suf ≠ [] ∧ SuffixOfL suf all ∧
      (st2 = joinNL suf ∨ st2 = '\n' :: joinNL suf)) :
    IsLineChunk all (pyStrip st2) := by
  rcases h with ⟨suf, hne, ⟨u, hu⟩, hcur | hcur⟩
  · exact ⟨suf, ⟨u, [], by rw [hu]; simp⟩, by rw [hcur]⟩
  · refine ⟨suf, ⟨u, [], by rw [hu]; simp⟩, ?_⟩
    rw [hcur, pyStrip_cons_space (by decide)]

theorem goodState_step (cs co : Int) (all : List Str) (st : List Str × Str) (l : Str)
    (h : GoodState all st) : GoodState (all ++ [l]) (splitStep cs co st l) := by
  rcases h with ⟨hchunks, hbuf⟩
  have hmono : ∀ c ∈ st.1, IsLineChunk (all ++ [l]) c :=
    fun c hc => isLineChunk_mono all l c (hchunks c hc)
  have hsingle : SuffixOfL [l] (all ++ [l]) := ⟨all, rfl⟩
  have hbufGood : st.2 ≠ [] → IsLineChunk (all ++ [l]) (pyStrip st.2) := by
    intro hne
    rcases hbuf with hnil | hb
    · exact absurd hnil hne
    · exact isLineChunk_mono all l _ (isLineChunk_of_buffer all st.2 hb)
  unfold splitStep
  split
  · rename_i hcond
    refine ⟨?_, Or.inr ⟨[l], by simp, hsingle, Or.inl rfl⟩⟩
    intro c hc
    rcases List.mem_append.mp hc with hc1 | hc1
    · exact hmono c hc1
    · rw [List.mem_singleton.mp hc1]
      exact hbufGood hcond.2
  · split
    · refine ⟨?_, Or.inr ⟨[l], by simp, hsingle, Or.inl rfl⟩⟩
      intro c hc
      split at hc
      · rename_i hne
        rcases List.mem_append.mp hc with hc1 | hc1
        · exact hmono c hc1
        · rw [List.mem_singleton.mp hc1]
          exact hbufGood hne
      · exact hmono c hc
    · refine ⟨hmono, Or.inr ?_⟩
      rcases hbuf with hnil | ⟨suf, hsne, ⟨u, hu⟩, hcur | hcur⟩
      · refine ⟨[l], by simp, hsingle, Or.inr ?_⟩
        rw [hnil]; rfl
      · refine ⟨suf ++ [l], by simp, ⟨u, by rw [hu]; simp⟩, Or.inl ?_⟩
        rw [hcur, joinNL_concat suf hsne]
      · refine ⟨suf ++ [l], by simp, ⟨u, by rw [hu]; simp⟩, Or.inr ?_⟩
        rw [hcur, joinNL_concat suf hsne]
        rfl

theorem goodState_fold (cs co : Int) (lines : List Str) :
    ∀ (all : List Str) (st : List Str × Str), GoodState all st →
      GoodState (all ++ lines) (lines.foldl (splitStep cs co) st) := by
  induction lines with
  | nil => intro all st h; simpa using h
  | cons l ls ih =>
    intro all st h
    have h1 := goodState_step cs co all st l h
    have h2 := ih (all ++ [l]) _ h1
    simpa using h2

/-- Shared boundary lemma: every chunk emitted by `_split_text` is the
stripped join of a block of consecutive input lines. -/
theorem splitText_chunks_lineChunks (cs co : Int) (text : Str) :
    ∀ c ∈ splitText cs co text, IsLineChunk (pySplitNL text) c := by
  intro c hc
  have hinit : GoodState [] ([], ([] : Str)) := ⟨by simp, Or.inl rfl⟩
  have hfold := goodState_fold cs co (pySplitNL text) [] ([], []) hinit
  rw [List.nil_append] at hfold
  rcases hfold with ⟨hchunks, hbuf⟩
  have hc2 : c ∈ finishSplit ((pySplitNL text).foldl (splitStep cs co) ([], [])) := hc
  unfold finishSplit at hc2
  split at hc2
  · rename_i hne
    rcases List.mem_append.mp hc2 with hc3 | hc3
    · exact hchunks c hc3
    · rw [List.mem_singleton.mp hc3]
      rcases hbuf with hnil | hb
      · exact absurd hnil hne
      · exact isLineChunk_of_buffer _ _ hb
  · exact hchunks c hc2

theorem appendLines_eq (ls : List Str) :
    ∀ cur : Str, appendLines cur ls = cur ++ nlTail ls := by
  induction ls with
  | nil => intro cur; simp [appendLines, nlTail]
  | cons l t ih =>
    intro cur
    show appendLines (cur ++ '\n' :: l) t = _
    rw [ih]
    simp [nlTail]

theorem joinNL_eq_nlTail (h : Str) (t : List Str) :
    joinNL (h :: t) = h ++ nlTail t := by
  induction t generalizing h with
  | nil => simp [joinNL, nlTail]
  | cons r rs ih =>
    show h ++ '\n' :: joinNL (r :: rs) = _
    rw [ih r]
    simp [nlTail]

/-- If every length check passes, the whole tail of lines is merged into
the running buffer and no chunk is flushed. -/
theorem merge_all (cs co : Int) (ls : List Str) :
    ∀ (chunks : List Str) (cur : Str), cur ≠ [] →
      (∀ l ∈ ls, reMatchSection l = false) →
      ((appendLines cur ls).length : Int) ≤ cs - co + 1 →
      ls.foldl (splitStep cs co) (chunks, cur) = (chunks, appendLines cur ls) := by
  induction ls with
  | nil => intro chunks cur _ _ _; rfl
  | cons l t ih =>
    intro chunks cur hne hsec hlen
    have hsecl : reMatchSection l = false := hsec l (List.mem_cons_self l t)
    have happ : appendLines cur (l :: t) = appendLines (cur ++ '\n' :: l) t := rfl
    have hsub : ((cur ++ '\n' :: l).length : Int) ≤ ((appendLines cur (l :: t)).length : Int) := by
      rw [happ, appendLines_eq]
      simp
    have hnogt : ¬ ((cur.length : Int) + (l.length : Int) > cs - co) := by
      have : ((cur ++ '\n' :: l).length : Int) = (cur.length : Int) + (l.length : Int) + 1 := by
        simp; omega
      omega
    show t.foldl (splitStep cs co) (splitStep cs co (chunks, cur) l) = _
    have hstep : splitStep cs co (chunks, cur) l = (chunks, cur ++ '\n' :: l) := by
      unfold splitStep
      rw [if_neg (by simp [hsecl]), if_neg hnogt]
    rw [hstep, happ]
    exact ih chunks (cur ++ '\n' :: l) (by simp)
      (fun x hx => hsec x (List.mem_cons_of_mem l hx))
      (by rw [← happ]; exact hlen)

/-- C4 (amended): whenever the whole text is shorter than
`chunk_size - chunk_overlap`, `_split_text` returns the single chunk
equal to the stripped input; no heading proviso is needed because the
heading branch never fires. -/
theorem splitText_small (cs co : Int) (text : Str)
    (h : (text.length : Int) < cs - co) :
    splitText cs co text = [pyStrip text] := by
  match hx : pySplitNL text with
  | [] => exact absurd hx (pySplitNL_ne_nil text)
  | l1 :: rest =>
    have htext : text = l1 ++ nlTail rest := by
      conv_lhs => rw [← joinNL_pySplitNL text]
      rw [hx, joinNL_eq_nlTail]
    have hl1 : (l1.length : Int) ≤ (text.length : Int) := by
      rw [htext]; simp
    have hsec1 : reMatchSection l1 = false :=
      reMatchSection_no_nl l1
        (no_nl_of_mem_pySplitNL text l1 (hx ▸ List.mem_cons_self _ _))
    have hstep1 : splitStep cs co ([], []) l1 = ([], '\n' :: l1) := by
      unfold splitStep
      rw [if_neg (by simp [hsec1]), if_neg (by simp; omega)]
      rfl
    have hrest : rest.foldl (splitStep cs co) ([], '\n' :: l1)
        = ([], appendLines ('\n' :: l1) rest) := by
      apply merge_all
      · simp
      · intro x hxm
        exact reMatchSection_no_nl x
          (no_nl_of_mem_pySplitNL text x (hx ▸ List.mem_cons_of_mem _ hxm))
      · rw [appendLines_eq]
        have hlen2 : (('\n' :: l1 ++ nlTail rest).length : Int)
            = (text.length : Int) + 1 := by
          rw [htext]; simp
        have : ('\n' :: l1) ++ nlTail rest = '\n' :: (l1 ++ nlTail rest) := rfl
        rw [this, ← htext] at hlen2
        rw [show ('\n' :: l1) ++ nlTail rest = '\n' :: (l1 ++ nlTail rest) from rfl, ← htext]
        omega
    have hfold : (l1 :: rest).foldl (splitStep cs co) ([], [])
        = ([], '\n' :: text) := by
      show rest.foldl (splitStep cs co) (splitStep cs co ([], []) l1) = _
      rw [hstep1, hrest, appendLines_eq]
      rw [show ('\n' :: l1) ++ nlTail rest = '\n' :: (l1 ++ nlTail rest) from rfl, ← htext]
    show splitLinesF cs co (pySplitNL text) = _
    rw [hx, splitLinesF_eq_finish, hfold]
    unfold finishSplit
    rw [if_pos (by simp)]
    rw [show ([] : List Str) ++ [pyStrip ('\n' :: text)] = [pyStrip ('\n' :: text)] from rfl]
    rw [pyStrip_cons_space (by decide)]

/-- C4 witness: a concrete short text for which the single stripped
chunk is returned. -/
theorem splitText_small_witness :
    ((("ab\ncd").data).length : Int) < 100 - 10 ∧
    splitText 100 10 (("ab\ncd").data) = [pyStrip (("ab\ncd").data)] :=
  ⟨by decide, splitText_small 100 10 (("ab\ncd").data) (by decide)⟩

/-- C4 counterexample: a text of length 9 with `chunk_size = 10` and
`chunk_overlap = 5`, no heading lines at all, split into two chunks:
the length check uses `chunk_size - chunk_overlap`, not `chunk_size`. -/
theorem short_text_not_single_chunk :
    ((("aaaa\nbbbb").data).length : Int) < 10 ∧
    (pySplitNL (("aaaa\nbbbb").data)).all (fun l => !(specSectionHeading l)) = true ∧
    splitText 10 5 (("aaaa\nbbbb").data) ≠ [pyStrip (("aaaa\nbbbb").data)] := by
  refine ⟨by decide, by decide, by decide⟩

/-- C5 (amended): on the empty string `_split_text` returns one empty
chunk whenever `chunk_size - chunk_overlap ≥ 0` (the buffer holds the
truthy string `"\n"`, which strips to the empty chunk), and the empty
sequence otherwise. -/
theorem splitText_empty_eval (cs co : Int) :
    splitText cs co [] = if 0 ≤ cs - co then [[]] else [] := by
  show splitLinesF cs co (pySplitNL []) = _
  have h0 : pySplitNL ([] : Str) = [[]] := rfl
  rw [h0, splitLinesF_eq_finish]
  show finishSplit (splitStep cs co ([], []) []) = _
  unfold splitStep
  rw [if_neg (by simp)]
  by_cases h : 0 ≤ cs - co
  · rw [if_neg (by simp; omega), if_pos h]
    rfl
  · rw [if_pos (by simp; omega), if_neg h]
    rfl

/-- C5 counterexample: with the default configuration, the empty input
text yields one empty trailing chunk, not the empty sequence. -/
theorem splitText_empty_not_nil :
    splitText 1000 200 [] = [[]] ∧ splitText 1000 200 [] ≠ [] := by
  refine ⟨by decide, by decide⟩

/-- C6 (amended): every chunk `_split_text` returns is its buffer
stripped of leading and trailing whitespace, hence a fixed point of
stripping; a chunk can still be empty when its buffer was whitespace. -/
theorem splitText_chunks_trimmed (cs co : Int) (text : Str) :
    (splitText cs co text).Forall (fun c => pyStrip c = c) := by
  rw [List.forall_iff_forall_mem]
  intro c hc
  rcases splitText_chunks_lineChunks cs co text c hc with ⟨seg, _, hcs⟩
  rw [hcs, pyStrip_idem]

/-- C6 counterexample: a whitespace-only buffer is truthy in Python, so
its flush emits a chunk that is empty after stripping. -/
theorem whitespace_buffer_empty_chunk :
    splitText 10 0 (("\n\nabcdefghijk").data) = [[], ("abcdefghijk").data] ∧
    [] ∈ splitText 10 0 (("\n\nabcdefghijk").data) := by
  refine ⟨by decide, by decide⟩

/-- C3: chunk boundaries never split inside a line — every chunk is the
stripped newline-join of a block of consecutive input lines — and the
chunks, joined back together, carry every trimmed non-blank line of the
input exactly once, in order. -/
theorem splitText_boundaries_and_content (cs co : Int) (text : Str) :
    nbLines (joinNL (splitText cs co text)) = nbLines text ∧
    (splitText cs co text).Forall (IsLineChunk (pySplitNL text)) := by
  constructor
  · exact splitText_content cs co text
  · rw [List.forall_iff_forall_mem]
    exact splitText_chunks_lineChunks cs co text

/-- C1: contrary to the claim, a section-heading line does not start a
new chunk: the section pattern requires a leading newline which no
split line contains, so the heading line is merged into the running
chunk. -/
theorem heading_does_not_flush :
    reMatchSection (("第二章 發展").data) = false ∧
    splitText 1000 200 (("內容A\n第二章 發展").data)
      = [("內容A\n第二章 發展").data] := by
  refine ⟨by decide, by decide⟩

set_option maxRecDepth 10000 in
/-- C2: contrary to the claim, the example text is returned as a single
chunk because the heading branch never fires. -/
theorem example_text_single_chunk :
    splitText defaultChunkSize defaultChunkOverlap
        (("第一章 緣起\n內容A\n第二章 發展\n內容B").data)
      = [("第一章 緣起\n內容A\n第二章 發展\n內容B").data] := by
  decide

theorem foldl_append_eq_flatten {α β : Type} (f : α → List β) (ks : List α) :
    ∀ acc : List β, ks.foldl (fun a k => a ++ f k) acc = acc ++ (ks.map f).flatten := by
  induction ks with
  | nil => intro acc; simp
  | cons k t ih =>
    intro acc
    show t.foldl _ (acc ++ f k) = _
    rw [ih]
    simp

/-- C10: the extractor walks the fixed keyword list in order and, for
each keyword, appends that keyword's matches in text order, so the
output is grouped by keyword-list position first and text position only
second; the concrete text shows the output is not globally ordered by
text position: 碳排 occurs at position 0 and 員工 only at position 5,
yet the 員工 candidate is listed first. -/
theorem extract_keyword_major :
    (∀ text : Str, extractMetricCandidates text =
      (esgKeywords.map (fun kw =>
        (scanKw kw text.length text).map
          (fun m => { keyword := kw, context := m.1, value := m.2,
                      unit := none }))).flatten) ∧
    (extractMetricCandidates (("碳排 5，員工 3。").data) =
      [{ keyword := ("員工").data, context := ("員工 3").data,
         value := ("3").data, unit := none },
       { keyword := ("碳排").data, context := ("碳排 5").data,
         value := ("5").data, unit := none }] ∧
     occursAt (("碳排").data) (("碳排 5，員工 3。").data) 0 ∧
     occursAt (("員工").data) (("碳排 5，員工 3。").data) 5) := by
  constructor
  · intro text
    have h := foldl_append_eq_flatten
      (fun kw => (scanKw kw text.length text).map
        (fun m => ({ keyword := kw, context := m.1, value := m.2,
                     unit := none } : MetricCandidate))) esgKeywords []
    simpa [extractMetricCandidates] using h
  · refine ⟨by decide, by unfold occursAt; decide, by unfold occursAt; decide⟩

set_option maxRecDepth 100000 in
/-- C7: on the example text the extractor finds the two expected
keyword/value pairs, but contrary to the claim both units are `None`:
the unit alternation is a non-capturing group, so the match has a
single capturing group and the code's
`match.group(2) if len(match.groups()) > 1 else None` always takes the
`None` branch.  The unit characters are still consumed into the
context (`group(0)`). -/
theorem metric_units_always_none :
    extractMetricCandidates (("員工人數共 1200 人，碳排放減少 15%。").data) =
      [{ keyword := ("員工").data, context := ("員工人數共 1200 人").data,
         value := ("1200").data, unit := none },
       { keyword := ("碳排").data, context := ("碳排放減少 15%").data,
         value := ("15").data, unit := none }] := by
  decide

/-- C8: whenever `process_document` succeeds, the returned metadata
counters equal the number of tables and the number of chunks. -/
theorem processDocument_metadata (cs co : Int) (name sfx ptime text : Str)
    (tables : List DataFrame) :
    metaConsistent tables (processDocument cs co name sfx ptime text tables) := by
  unfold processDocument
  dsimp only
  split
  · exact ⟨rfl, rfl⟩
  · trivial

/-- C9: a lowercased suffix other than `.pdf`, `.docx`, `.xlsx` makes
`process_document` fail with the unsupported-file-type error naming
the suffix; the result does not depend on the reader output `text` and
`tables`, reflecting that the error is raised before any file read. -/
theorem processDocument_unsupported (cs co : Int) (name rawSfx ptime text : Str)
    (tables : List DataFrame)
    (h : ¬(pyLower rawSfx = (".pdf").data ∨ pyLower rawSfx = (".docx").data ∨
           pyLower rawSfx = (".xlsx").data)) :
    processDocument cs co name rawSfx ptime text tables
      = Except.error (("Unsupported file type: ").data ++ pyLower rawSfx) := by
  unfold processDocument
  rw [if_neg h]

/-- C9 witness: the `.txt` suffix is rejected. -/
theorem processDocument_unsupported_witness :
    processDocument 1000 200 [] ((".txt").data) [] [] []
      = Except.error (("Unsupported file type: ").data ++ pyLower ((".txt").data)) :=
  processDocument_unsupported 1000 200 [] ((".txt").data) [] [] [] (by decide)
